import Mathlib

/-!
# Verification of the `randomizer` weighted-random-selection library

Shallow embedding of `src/randomizer.py`. Python dicts of shape
`{"item": ..., "probability": int}` become the structure `WRec`; raw inputs
(either such a well-formed dict or any other value) become the tagged type
`RawItem`. The helper functions `format_list`, `format_list_probabilities`
and `get_from_list` are translated as pure functions; `RandomList` and
`RandomGroup` become state-passing structures, and the random draw
(`random.randint(1, range_max)`) becomes an explicit integer parameter.

Python's `sorted(..., key=..., reverse=True)` is a stable sort placing larger
keys first; it is embedded as `List.insertionSort` with the relation
"left weight is at least right weight", which performs exactly that stable
descending sort.

Python aliasing is modelled explicitly: `reset_contents` executes
`self.contents = self._original_contents`, making the two attributes the same
list object from then on; the `aliased` flag in the `RandomList` state records
this, and in-place mutations of `contents` are applied to `original_contents`
as well whenever the flag is set. Errors (`raise IndexError ...`) become
`Except`/`Option` results; since every `raise` in the source happens before
any mutation, an erroring call leaves the state unchanged.
-/

namespace Randomizer

/-- A well-formed weighted record: the Python dict
`{"item": x, "probability": p}`. -/
structure WRec (α : Type) where
  item : α
  probability : Int
deriving DecidableEq, Repr

/-- A raw input element: either a well-formed record (a dict carrying both an
`"item"` and a `"probability"` key) or any other value. -/
inductive RawItem (α : Type) where
  | plain (a : α)
  | record (r : WRec α)
deriving DecidableEq, Repr

/-- The per-element normalization of `format_list`: a well-formed record is
kept as-is, anything else is wrapped with probability 1. -/
def normalizeItem {α : Type} : RawItem α → WRec α
  | .plain a => { item := a, probability := 1 }
  | .record r => r

/-- The descending-weight ordering used by
`sorted(formatted_list, key=lambda k: k['probability'], reverse=True)`. -/
def weightGE {α : Type} (a b : WRec α) : Prop :=
  b.probability ≤ a.probability

instance {α : Type} : DecidableRel (weightGE (α := α)) :=
  fun a b => inferInstanceAs (Decidable (b.probability ≤ a.probability))

instance {α : Type} : IsTotal (WRec α) weightGE :=
  ⟨fun a b => (le_total b.probability a.probability).imp id id⟩

instance {α : Type} : IsTrans (WRec α) weightGE :=
  ⟨fun _ _ _ h h' => le_trans h' h⟩

/-- Embedding of `format_list`: wrap each element that is not a well-formed
record with probability 1, then stably sort by descending probability. -/
def format_list {α : Type} (input_list : List (RawItem α)) : List (WRec α) :=
  List.insertionSort weightGE (input_list.map normalizeItem)

/-- Accumulator version of `format_list_probabilities`: `c` is the running
value of `cumulative_probability`. -/
def flpAux {α : Type} (c : Int) : List (WRec α) → List (WRec α)
  | [] => []
  | r :: rs => { item := r.item, probability := c + r.probability } ::
      flpAux (c + r.probability) rs

/-- Embedding of `format_list_probabilities`: replace each weight by the
running sum of weights up to and including it. The Python function builds
fresh records (`item.copy()`) and never mutates its input; the embedding is
accordingly a pure function. -/
def format_list_probabilities {α : Type} (input_list : List (WRec α)) :
    List (WRec α) :=
  flpAux 0 input_list

/-- Embedding of `get_from_list`: first record with `target ≤ probability`,
`none` for the `IndexError` raised when no record qualifies. -/
def get_from_list {α : Type} (target : Int) : List (WRec α) → Option (WRec α)
  | [] => none
  | r :: rs => if target ≤ r.probability then some r else get_from_list target rs

/-- The error kinds of the library, per the error-handling design:
`EmptyCollection` (`raise IndexError('RandomList is empty!')`),
`EmptyGroup` (`raise IndexError('RandomGroup is empty!')`) and `NotFound`
(the `IndexError`s of `get_from_list` and `_get_item_index`). -/
inductive Err where
  | emptyCollection
  | emptyGroup
  | notFound
deriving DecidableEq, Repr

/-- State of a `RandomList` object. `aliased` records whether
`contents` and `_original_contents` are the same Python list object, which
becomes true after the first `reset_contents()` executes
`self.contents = self._original_contents`. -/
structure RandomList (α : Type) where
  contents : List (WRec α)
  offset_contents : List (WRec α)
  original_contents : List (WRec α)
  aliased : Bool
deriving DecidableEq, Repr

namespace RandomList

/-- Embedding of `RandomList.__init__`: `contents` from `format_list` over a
deep copy of the input, `_offset_contents` from `format_list_probabilities`,
`_original_contents` a fresh deep copy of `contents` (hence `aliased := false`). -/
def make {α : Type} (input_list : List (RawItem α)) : RandomList α :=
  let c := format_list input_list
  { contents := c
    offset_contents := format_list_probabilities c
    original_contents := c
    aliased := false }

/-- The in-place update performed by `_get_item_index` plus
`_adjust_probability` on the `contents` list: find the first record whose
item equals `target_item` (`none` = the `IndexError` of `_get_item_index`),
add `adjustment_amount` to its probability, and delete the record when the
result is `≤ 0`. -/
def adjustList {α : Type} [DecidableEq α] (target_item : α)
    (adjustment_amount : Int) : List (WRec α) → Option (List (WRec α))
  | [] => none
  | r :: rs =>
    if r.item = target_item then
      if r.probability + adjustment_amount ≤ 0 then some rs
      else some ({ item := r.item,
                   probability := r.probability + adjustment_amount } :: rs)
    else (adjustList target_item adjustment_amount rs).map (r :: ·)

/-- Embedding of `RandomList._adjust_probability`. The mutation of
`self.contents` also mutates `self._original_contents` when the two alias
(after a `reset_contents`); `_offset_contents` is rebuilt unconditionally.
`none` models the `NotFound` `IndexError`, raised before any mutation. -/
def adjust_probability {α : Type} [DecidableEq α] (s : RandomList α)
    (target_item : α) (adjustment_amount : Int) : Option (RandomList α) :=
  (adjustList target_item adjustment_amount s.contents).map fun c =>
    { contents := c
      offset_contents := format_list_probabilities c
      original_contents := if s.aliased then c else s.original_contents
      aliased := s.aliased }

/-- Embedding of `RandomList.get_random`, with the random draw
`random.randint(1, range_max)` supplied as the explicit parameter `target`. -/
def get_random {α : Type} (s : RandomList α) (target : Int) : Except Err α :=
  if s.contents.isEmpty then .error .emptyCollection
  else
    match get_from_list target s.offset_contents with
    | some r => .ok r.item
    | none => .error .notFound

/-- Embedding of `RandomList.get_random_and_remove`, random draw supplied as
`target`; returns the drawn item together with the post-call state. -/
def get_random_and_remove {α : Type} [DecidableEq α] (s : RandomList α)
    (target : Int) : Except Err (α × RandomList α) :=
  if s.contents.isEmpty then .error .emptyCollection
  else
    match get_from_list target s.offset_contents with
    | some r =>
      match s.adjust_probability r.item (-1) with
      | some s2 => .ok (r.item, s2)
      | none => .error .notFound
    | none => .error .notFound

/-- Embedding of `RandomList.reset_contents`:
`self.contents = self._original_contents` aliases the two attributes
(`aliased := true`), then `_offset_contents` is rebuilt. -/
def reset_contents {α : Type} (s : RandomList α) : RandomList α :=
  { contents := s.original_contents
    offset_contents := format_list_probabilities s.original_contents
    original_contents := s.original_contents
    aliased := true }

/-- Embedding of `RandomList.get_all_items`. -/
def get_all_items {α : Type} (s : RandomList α) : List α :=
  s.contents.map WRec.item

end RandomList

/-- A public operation on a `RandomList`, with the random draw of the two
drawing operations made explicit. -/
inductive Op where
  | draw (target : Int)
  | drawRemove (target : Int)
  | reset
deriving DecidableEq, Repr

namespace RandomList

/-- The state after running one public operation. `get_random` never mutates;
an erroring call leaves the state unchanged (every `raise` in the source
happens before any mutation). -/
def step {α : Type} [DecidableEq α] (s : RandomList α) : Op → RandomList α
  | .draw _ => s
  | .drawRemove t =>
    match s.get_random_and_remove t with
    | .ok (_, s2) => s2
    | .error _ => s
  | .reset => s.reset_contents

/-- The state after running a sequence of public operations. -/
def run {α : Type} [DecidableEq α] (s : RandomList α) (ops : List Op) :
    RandomList α :=
  ops.foldl step s

/-- Run a sequence of `get_random_and_remove` calls with the given draws,
failing (`none`) as soon as one call errors. -/
def runRemove {α : Type} [DecidableEq α] (s : RandomList α) :
    List Int → Option (RandomList α)
  | [] => some s
  | t :: ts =>
    match s.get_random_and_remove t with
    | .ok (_, s2) => runRemove s2 ts
    | .error _ => none

/-- `range_max` as read by `_get_random_probability`
(`self._offset_contents[-1]["probability"]`), taken as 0 for an empty list. -/
def totalWeight {α : Type} (s : RandomList α) : Int :=
  ((s.offset_contents.getLast?).map WRec.probability).getD 0

end RandomList

/-- State of a `RandomGroup` object: records whose items are `RandomList`
states. `_original_lists` is built but never read by any method and is
omitted. -/
structure RandomGroup (α : Type) where
  lists : List (WRec (RandomList α))
  offset_lists : List (WRec (RandomList α))

namespace RandomGroup

/-- Embedding of `RandomGroup.__init__` (no deep copy of the input is taken
there: `format_list` runs directly on `input_lists`). -/
def make {α : Type} (input_lists : List (RawItem (RandomList α))) :
    RandomGroup α :=
  let l := format_list input_lists
  { lists := l, offset_lists := format_list_probabilities l }

/-- Embedding of `RandomGroup.get_random`: `target` is the group-level draw,
`target2` is the draw made inside the chosen member's `get_random`. -/
def get_random {α : Type} (g : RandomGroup α) (target target2 : Int) :
    Except Err α :=
  if g.lists.isEmpty then .error .emptyGroup
  else
    match get_from_list target g.offset_lists with
    | some r => r.item.get_random target2
    | none => .error .notFound

/-- Embedding of `RandomGroup.get_all_lists`. -/
def get_all_lists {α : Type} (g : RandomGroup α) : List (List α) :=
  g.lists.map fun r => r.item.get_all_items

end RandomGroup

/-! ## Lemmas about `format_list` (Weight Normalizer) -/

lemma filter_orderedInsert_eq {α : Type} (w : Int) (x : WRec α)
    (l : List (WRec α)) (hx : x.probability = w) :
    (l.orderedInsert weightGE x).filter (fun r => decide (r.probability = w)) =
      x :: l.filter (fun r => decide (r.probability = w)) := by
  induction l with
  | nil => simp [hx]
  | cons y ys ih =>
    by_cases h : weightGE x y
    · simp [List.orderedInsert, h, hx]
    · have hy : ¬ y.probability = w := by
        intro hyw
        exact h (le_of_eq (hyw.trans hx.symm))
      simp [List.orderedInsert, h, hy, ih]

lemma filter_orderedInsert_ne {α : Type} (w : Int) (x : WRec α)
    (l : List (WRec α)) (hx : ¬ x.probability = w) :
    (l.orderedInsert weightGE x).filter (fun r => decide (r.probability = w)) =
      l.filter (fun r => decide (r.probability = w)) := by
  induction l with
  | nil => simp [hx]
  | cons y ys ih =>
    by_cases h : weightGE x y
    · simp [List.orderedInsert, h, hx]
    · simp [List.orderedInsert, h, List.filter_cons, ih]

lemma filter_insertionSort {α : Type} (w : Int) (l : List (WRec α)) :
    (List.insertionSort weightGE l).filter (fun r => decide (r.probability = w)) =
      l.filter (fun r => decide (r.probability = w)) := by
  induction l with
  | nil => rfl
  | cons x xs ih =>
    by_cases hx : x.probability = w
    · rw [List.insertionSort, filter_orderedInsert_eq w x _ hx, ih]
      simp [hx]
    · rw [List.insertionSort, filter_orderedInsert_ne w x _ hx, ih]
      simp [hx]

/-- C5: `format_list` keeps the input length, wraps every non-record element
with weight 1 and keeps well-formed records as-is (its output is a
permutation of the elementwise-normalized input), is sorted by non-increasing
weight, is stable (for every weight, the sublist of records of that weight is
the same in output and normalized input, in the same order), and maps the
empty input to the empty output with no error. Determinism is implicit:
the embedding is a pure function. -/
theorem format_list_spec {α : Type} (l : List (RawItem α)) :
    (format_list l).length = l.length
    ∧ (format_list l).Perm (l.map normalizeItem)
    ∧ (∀ a : α, normalizeItem (RawItem.plain a) = { item := a, probability := 1 })
    ∧ (∀ r : WRec α, normalizeItem (RawItem.record r) = r)
    ∧ (format_list l).Sorted weightGE
    ∧ (∀ w : Int,
        (format_list l).filter (fun r => decide (r.probability = w)) =
          (l.map normalizeItem).filter (fun r => decide (r.probability = w)))
    ∧ format_list ([] : List (RawItem α)) = [] := by
  refine ⟨?_, ?_, fun _ => rfl, fun _ => rfl, ?_, ?_, rfl⟩
  · rw [format_list, List.length_insertionSort, List.length_map]
  · exact (List.perm_insertionSort _ _)
  · exact List.sorted_insertionSort weightGE _
  · intro w
    exact filter_insertionSort w _

/-! ## Lemmas about `format_list_probabilities` (Cumulative Index Builder) -/

lemma flpAux_length {α : Type} (c : Int) (l : List (WRec α)) :
    (flpAux c l).length = l.length := by
  induction l generalizing c with
  | nil => rfl
  | cons r rs ih => simp [flpAux, ih]

lemma flpAux_map_item {α : Type} (c : Int) (l : List (WRec α)) :
    (flpAux c l).map WRec.item = l.map WRec.item := by
  induction l generalizing c with
  | nil => rfl
  | cons r rs ih => simp [flpAux, ih]

lemma flpAux_get {α : Type} (c : Int) (l : List (WRec α)) (i : Nat)
    (h : i < l.length) (h2 : i < (flpAux c l).length) :
    ((flpAux c l).get ⟨i, h2⟩).probability =
      c + ((l.take (i + 1)).map WRec.probability).sum := by
  induction l generalizing c i with
  | nil => simp at h
  | cons r rs ih =>
    cases i with
    | zero => simp [flpAux]
    | succ j =>
      have hj : j < rs.length := by simpa using h
      have hj2 : j < (flpAux (c + r.probability) rs).length := by
        rw [flpAux_length]; exact hj
      have := ih (c + r.probability) j hj hj2
      simp only [flpAux, List.get_cons_succ, List.take_succ_cons, List.map_cons,
        List.sum_cons] at this ⊢
      rw [this]; ring

lemma flpAux_getLast {α : Type} (c : Int) (l : List (WRec α)) (r : WRec α)
    (h : (flpAux c l).getLast? = some r) :
    r.probability = c + (l.map WRec.probability).sum := by
  induction l generalizing c with
  | nil => simp [flpAux] at h
  | cons x xs ih =>
    cases xs with
    | nil =>
      simp [flpAux] at h
      rw [← h]; simp
    | cons y ys =>
      rw [flpAux, flpAux, List.getLast?_cons_cons] at h
      have := ih (c + x.probability) (by rw [flpAux]; exact h)
      rw [this]; simp; ring

lemma flpAux_head_ge {α : Type} (c : Int) (l : List (WRec α))
    (hnn : ∀ r ∈ l, 0 ≤ r.probability) (r : WRec α)
    (h : (flpAux c l).head? = some r) : c ≤ r.probability := by
  cases l with
  | nil => simp [flpAux] at h
  | cons x xs =>
    simp only [flpAux, List.head?_cons, Option.some.injEq] at h
    have : 0 ≤ x.probability := hnn x (List.mem_cons_self x xs)
    rw [← h]
    simpa using this

lemma flpAux_chain {α : Type} (c : Int) (l : List (WRec α))
    (hnn : ∀ r ∈ l, 0 ≤ r.probability) :
    (flpAux c l).Chain' fun a b => a.probability ≤ b.probability := by
  induction l generalizing c with
  | nil => simp [flpAux]
  | cons x xs ih =>
    rw [flpAux, List.chain'_cons']
    constructor
    · intro y hy
      have h1 : c + x.probability ≤ y.probability :=
        flpAux_head_ge (c + x.probability) xs
          (fun r hr => hnn r (List.mem_cons_of_mem _ hr)) y hy
      simpa using h1
    · exact ih (c + x.probability) fun r hr => hnn r (List.mem_cons_of_mem _ hr)

/-- C6: `format_list_probabilities` keeps length and item order, replaces
each weight by the inclusive prefix sum of the input weights, its final
weight is the total input weight, its weights are non-decreasing when all
input weights are non-negative, and the empty input yields the empty output.
The Python function builds fresh records and never mutates its input; the
embedding is accordingly a pure function of the input. -/
theorem format_list_probabilities_spec {α : Type} (l : List (WRec α)) :
    (format_list_probabilities l).length = l.length
    ∧ (format_list_probabilities l).map WRec.item = l.map WRec.item
    ∧ (∀ i : Nat, ∀ h : i < l.length, ∀ h2 : i < (format_list_probabilities l).length,
        ((format_list_probabilities l).get ⟨i, h2⟩).probability =
          ((l.take (i + 1)).map WRec.probability).sum)
    ∧ (∀ r : WRec α, (format_list_probabilities l).getLast? = some r →
        r.probability = (l.map WRec.probability).sum)
    ∧ ((∀ r ∈ l, 0 ≤ r.probability) →
        (format_list_probabilities l).Chain' fun a b => a.probability ≤ b.probability)
    ∧ format_list_probabilities ([] : List (WRec α)) = [] := by
  refine ⟨flpAux_length 0 l, flpAux_map_item 0 l, ?_, ?_, ?_, rfl⟩
  · intro i h h2
    have := flpAux_get 0 l i h h2
    simpa using this
  · intro r h
    have := flpAux_getLast 0 l r h
    simpa using this
  · intro hnn
    exact flpAux_chain 0 l hnn

/-- Witness for C6: evaluates the hypothesis-guarded parts at the concrete
cumulative-sequence scenario of the spec. -/
theorem format_list_probabilities_spec_witness :
    ((format_list_probabilities [WRec.mk (2 : Nat) 2, WRec.mk 0 1, WRec.mk 1 1]).get
        ⟨1, by decide⟩).probability = 3
    ∧ (∀ r : WRec Nat,
        (format_list_probabilities [WRec.mk (2 : Nat) 2, WRec.mk 0 1, WRec.mk 1 1]).getLast? =
          some r → r.probability = 4)
    ∧ (format_list_probabilities [WRec.mk (2 : Nat) 2, WRec.mk 0 1, WRec.mk 1 1]).Chain'
        (fun a b => a.probability ≤ b.probability) := by
  obtain ⟨-, -, h3, h4, h5, -⟩ :=
    format_list_probabilities_spec [WRec.mk (2 : Nat) 2, WRec.mk 0 1, WRec.mk 1 1]
  refine ⟨?_, ?_, ?_⟩
  · rw [h3 1 (by decide) (by decide)]; decide
  · intro r hr
    rw [h4 r hr]; decide
  · exact h5 (by decide)

/-! ## Lemmas about `get_from_list` (Selector) -/

lemma gfl_first {α : Type} (target : Int) :
    ∀ (l : List (WRec α)) (i : Nat) (h : i < l.length),
      (∀ j, ∀ hj : j < i, (l.get ⟨j, lt_trans hj h⟩).probability < target) →
      target ≤ (l.get ⟨i, h⟩).probability →
      get_from_list target l = some (l.get ⟨i, h⟩)
  | [], i, h => by simp at h
  | r :: rs, 0, h => by
    intro _ hle
    simp only [List.get] at hle ⊢
    rw [get_from_list, if_pos hle]
  | r :: rs, i + 1, h => by
    intro hbefore hle
    have hr : r.probability < target := hbefore 0 (Nat.succ_pos i)
    rw [get_from_list, if_neg (not_le.mpr hr)]
    exact gfl_first target rs i (Nat.lt_of_succ_lt_succ h)
      (fun j hj => hbefore (j + 1) (Nat.succ_lt_succ hj)) hle

lemma gfl_some {α : Type} (target : Int) :
    ∀ (l : List (WRec α)) (r : WRec α), get_from_list target l = some r →
      target ≤ r.probability ∧ r ∈ l
  | [], r => by simp [get_from_list]
  | x :: xs, r => by
    intro h
    rw [get_from_list] at h
    by_cases hx : target ≤ x.probability
    · rw [if_pos hx, Option.some.injEq] at h
      exact ⟨h ▸ hx, h ▸ List.mem_cons_self x xs⟩
    · rw [if_neg hx] at h
      obtain ⟨h1, h2⟩ := gfl_some target xs r h
      exact ⟨h1, List.mem_cons_of_mem x h2⟩

lemma gfl_none {α : Type} (target : Int) :
    ∀ l : List (WRec α),
      (get_from_list target l = none ↔ ∀ r ∈ l, r.probability < target)
  | [] => by simp [get_from_list]
  | x :: xs => by
    rw [get_from_list]
    by_cases hx : target ≤ x.probability
    · rw [if_pos hx]
      constructor
      · intro h; cases h
      · intro h
        exact absurd (h x (List.mem_cons_self x xs)) (not_lt.mpr hx)
    · rw [if_neg hx, gfl_none target xs]
      constructor
      · intro h r hr
        rcases List.mem_cons.mp hr with h1 | h2
        · exact h1 ▸ not_le.mp hx
        · exact h r h2
      · exact fun h r hr => h r (List.mem_cons_of_mem x hr)

lemma chain_le_getLast {α : Type} :
    ∀ (l : List (WRec α)),
      l.Chain' (fun a b => a.probability ≤ b.probability) →
      ∀ m : WRec α, l.getLast? = some m →
      ∀ x ∈ l, x.probability ≤ m.probability
  | [] => by simp
  | [a] => by
    intro _ m hm x hx
    have hma : m = a := by simpa using hm.symm
    have hxa : x = a := by simpa using hx
    rw [hma, hxa]
  | a :: b :: t => by
    intro hc m hm x hx
    rw [List.getLast?_cons_cons] at hm
    rw [List.chain'_cons] at hc
    have ih := chain_le_getLast (b :: t) hc.2 m hm
    rcases List.mem_cons.mp hx with h1 | h2
    · subst h1
      exact le_trans hc.1 (ih b (List.mem_cons_self b t))
    · exact ih x h2

/-- C4: `get_from_list` returns the first record in sequence order whose
weight is at least the target whenever one exists, any returned record
qualifies and belongs to the list, and it fails (the `NotFound`
`IndexError`) exactly when no record qualifies — which, for a cumulative
(non-decreasing) sequence, happens exactly when the sequence is empty or the
target exceeds the final cumulative weight. Repeated calls with the same
target and sequence return the same record: the embedding is a pure
function. -/
theorem get_from_list_spec {α : Type} (target : Int) (l : List (WRec α)) :
    (∀ i : Nat, ∀ h : i < l.length,
      (∀ j, ∀ hj : j < i, (l.get ⟨j, lt_trans hj h⟩).probability < target) →
      target ≤ (l.get ⟨i, h⟩).probability →
      get_from_list target l = some (l.get ⟨i, h⟩))
    ∧ (∀ r : WRec α, get_from_list target l = some r →
        target ≤ r.probability ∧ r ∈ l)
    ∧ (get_from_list target l = none ↔ ∀ r ∈ l, r.probability < target)
    ∧ (l.Chain' (fun a b => a.probability ≤ b.probability) →
        (get_from_list target l = none ↔
          l = [] ∨ ∀ m : WRec α, l.getLast? = some m → m.probability < target)) := by
  refine ⟨gfl_first target l, gfl_some target l, gfl_none target l, ?_⟩
  intro hc
  rw [gfl_none target l]
  constructor
  · intro h
    cases l with
    | nil => exact Or.inl rfl
    | cons x xs =>
      refine Or.inr fun m hm => ?_
      have hmem : m ∈ x :: xs := List.mem_of_mem_getLast? hm
      exact h m hmem
  · intro h r hr
    rcases h with h1 | h2
    · rw [h1] at hr; simp at hr
    · have hne : l ≠ [] := List.ne_nil_of_mem hr
      have hm := List.getLast?_eq_getLast_of_ne_nil hne
      have hlast := h2 _ hm
      exact lt_of_le_of_lt (chain_le_getLast l hc _ hm r hr) hlast

/-- Witness for C4: the spec's scenario — cumulative sequence
`[strawberry:2, vanilla:3, chocolate:4]` (encoded 2, 0, 1), target 3
resolves to vanilla, and target 5 is not found. -/
theorem get_from_list_spec_witness :
    get_from_list 3 [WRec.mk (2 : Nat) 2, WRec.mk 0 3, WRec.mk 1 4] =
      some (WRec.mk 0 3)
    ∧ (get_from_list 5 [WRec.mk (2 : Nat) 2, WRec.mk 0 3, WRec.mk 1 4] = none) := by
  constructor
  · exact (get_from_list_spec 3 [WRec.mk (2 : Nat) 2, WRec.mk 0 3, WRec.mk 1 4]).1
      1 (by decide) (by decide) (by decide)
  · refine ((get_from_list_spec 5
      [WRec.mk (2 : Nat) 2, WRec.mk 0 3, WRec.mk 1 4]).2.2.2
        (by norm_num [List.chain'_cons])).mpr ?_
    refine Or.inr fun m hm => ?_
    simp only [List.getLast?] at hm
    rw [show m = WRec.mk (1 : Nat) 4 by
      simpa using hm.symm]
    decide

/-! ## Lemmas about `_adjust_probability` and `get_random_and_remove` -/

namespace RandomList

lemma adjustList_none_iff {α : Type} [DecidableEq α] (tgt : α) (amt : Int) :
    ∀ l : List (WRec α), adjustList tgt amt l = none ↔ ∀ r ∈ l, r.item ≠ tgt
  | [] => by simp [adjustList]
  | x :: xs => by
    rw [adjustList]
    by_cases hx : x.item = tgt
    · rw [if_pos hx]
      by_cases hp : x.probability + amt ≤ 0
      · rw [if_pos hp]
        constructor
        · intro h; cases h
        · intro h
          exact absurd hx (h x (List.mem_cons_self x xs))
      · rw [if_neg hp]
        constructor
        · intro h; cases h
        · intro h
          exact absurd hx (h x (List.mem_cons_self x xs))
    · rw [if_neg hx, Option.map_eq_none', adjustList_none_iff tgt amt xs]
      constructor
      · intro h r hr
        rcases List.mem_cons.mp hr with h1 | h2
        · exact h1 ▸ hx
        · exact h r h2
      · exact fun h r hr => h r (List.mem_cons_of_mem x hr)

lemma adjustList_spec {α : Type} [DecidableEq α] (tgt : α) (amt : Int) :
    ∀ (l l' : List (WRec α)), adjustList tgt amt l = some l' →
      ∃ i, ∃ hi : i < l.length,
        (l.get ⟨i, hi⟩).item = tgt ∧
        (∀ j, ∀ hj : j < i, (l.get ⟨j, lt_trans hj hi⟩).item ≠ tgt) ∧
        l' = (if (l.get ⟨i, hi⟩).probability + amt ≤ 0 then l.eraseIdx i
              else l.set i
                { item := tgt, probability := (l.get ⟨i, hi⟩).probability + amt })
  | [], l' => by simp [adjustList]
  | x :: xs, l' => by
    intro h
    rw [adjustList] at h
    by_cases hx : x.item = tgt
    · rw [if_pos hx] at h
      refine ⟨0, Nat.succ_pos _, hx, fun j hj => absurd hj (Nat.not_lt_zero j), ?_⟩
      by_cases hp : x.probability + amt ≤ 0
      · rw [if_pos hp] at h
        rw [Option.some.injEq] at h
        subst h
        simp only [List.get]
        rw [if_pos hp]
        rfl
      · rw [if_neg hp] at h
        rw [Option.some.injEq] at h
        subst h
        simp only [List.get]
        rw [if_neg hp]
        rw [hx]
        rfl
    · rw [if_neg hx] at h
      obtain ⟨xs', hxs', hcons⟩ := Option.map_eq_some'.mp h
      obtain ⟨i, hi, h1, h2, h3⟩ := adjustList_spec tgt amt xs xs' hxs'
      refine ⟨i + 1, Nat.succ_lt_succ hi, h1, ?_, ?_⟩
      · intro j hj
        cases j with
        | zero => exact hx
        | succ k => exact h2 k (Nat.lt_of_succ_lt_succ hj)
      · rw [← hcons, h3]
        by_cases hp : (xs.get ⟨i, hi⟩).probability + amt ≤ 0
        · rw [if_pos hp]
          have : ((x :: xs).get ⟨i + 1, Nat.succ_lt_succ hi⟩) = xs.get ⟨i, hi⟩ := rfl
          rw [this, if_pos hp]
          rfl
        · rw [if_neg hp]
          have : ((x :: xs).get ⟨i + 1, Nat.succ_lt_succ hi⟩) = xs.get ⟨i, hi⟩ := rfl
          rw [this, if_neg hp]
          rfl

lemma adjustList_length {α : Type} [DecidableEq α] (tgt : α) (amt : Int) :
    ∀ (l l' : List (WRec α)), adjustList tgt amt l = some l' →
      l'.length = l.length ∨ l'.length + 1 = l.length
  | [], l' => by simp [adjustList]
  | x :: xs, l' => by
    intro h
    rw [adjustList] at h
    by_cases hx : x.item = tgt
    · rw [if_pos hx] at h
      by_cases hp : x.probability + amt ≤ 0
      · rw [if_pos hp, Option.some.injEq] at h
        subst h
        exact Or.inr rfl
      · rw [if_neg hp, Option.some.injEq] at h
        subst h
        exact Or.inl rfl
    · rw [if_neg hx] at h
      obtain ⟨xs', hxs', hcons⟩ := Option.map_eq_some'.mp h
      rcases adjustList_length tgt amt xs xs' hxs' with h1 | h1
      · exact Or.inl (by rw [← hcons]; simpa using h1)
      · exact Or.inr (by rw [← hcons]; simpa using h1)

lemma adjustList_sum {α : Type} [DecidableEq α] (tgt : α) :
    ∀ (l l' : List (WRec α)), adjustList tgt (-1) l = some l' →
      (∀ r ∈ l, 0 < r.probability) →
      (l'.map WRec.probability).sum = (l.map WRec.probability).sum - 1
  | [], l' => by simp [adjustList]
  | x :: xs, l' => by
    intro h hpos
    rw [adjustList] at h
    by_cases hx : x.item = tgt
    · rw [if_pos hx] at h
      by_cases hp : x.probability + (-1) ≤ 0
      · rw [if_pos hp, Option.some.injEq] at h
        subst h
        have h1 : 0 < x.probability := hpos x (List.mem_cons_self x xs)
        have h2 : x.probability = 1 := by omega
        simp [h2]
      · rw [if_neg hp, Option.some.injEq] at h
        subst h
        simp only [List.map_cons, List.sum_cons]
        ring
    · rw [if_neg hx] at h
      obtain ⟨xs', hxs', hcons⟩ := Option.map_eq_some'.mp h
      have := adjustList_sum tgt xs xs' hxs'
        (fun r hr => hpos r (List.mem_cons_of_mem x hr))
      rw [← hcons]
      simp only [List.map_cons, List.sum_cons]
      rw [this]
      ring

lemma adjustList_pos {α : Type} [DecidableEq α] (tgt : α) (amt : Int) :
    ∀ (l l' : List (WRec α)), adjustList tgt amt l = some l' →
      (∀ r ∈ l, 0 < r.probability) → ∀ r ∈ l', 0 < r.probability
  | [], l' => by simp [adjustList]
  | x :: xs, l' => by
    intro h hpos
    rw [adjustList] at h
    by_cases hx : x.item = tgt
    · rw [if_pos hx] at h
      by_cases hp : x.probability + amt ≤ 0
      · rw [if_pos hp, Option.some.injEq] at h
        subst h
        exact fun r hr => hpos r (List.mem_cons_of_mem x hr)
      · rw [if_neg hp, Option.some.injEq] at h
        subst h
        intro r hr
        rcases List.mem_cons.mp hr with h1 | h2
        · rw [h1]
          simpa using not_le.mp hp
        · exact hpos r (List.mem_cons_of_mem x h2)
    · rw [if_neg hx] at h
      obtain ⟨xs', hxs', hcons⟩ := Option.map_eq_some'.mp h
      intro r hr
      rw [← hcons] at hr
      rcases List.mem_cons.mp hr with h1 | h2
      · exact h1 ▸ hpos x (List.mem_cons_self x xs)
      · exact adjustList_pos tgt amt xs xs' hxs'
          (fun r hr => hpos r (List.mem_cons_of_mem x hr)) r h2

/-- Successful `get_random_and_remove` calls factor exactly through
`get_from_list` and `_adjust_probability` with delta −1. -/
lemma grr_ok {α : Type} [DecidableEq α] (s : RandomList α) (t : Int) (a : α)
    (s2 : RandomList α) (h : s.get_random_and_remove t = Except.ok (a, s2)) :
    s.contents ≠ [] ∧
    ∃ r, get_from_list t s.offset_contents = some r ∧ a = r.item ∧
    ∃ l', adjustList r.item (-1) s.contents = some l' ∧
      s2 = { contents := l'
             offset_contents := format_list_probabilities l'
             original_contents := if s.aliased then l' else s.original_contents
             aliased := s.aliased } := by
  rw [get_random_and_remove] at h
  split at h
  · exact absurd h (by simp)
  · rename_i he
    refine ⟨fun hnil => by rw [hnil] at he; simp at he, ?_⟩
    split at h
    · rename_i r heq
      split at h
      · rename_i s3 heq2
        simp only [Except.ok.injEq, Prod.mk.injEq] at h
        obtain ⟨ha, hs⟩ := h
        rw [adjust_probability] at heq2
        obtain ⟨l', hl', hs3⟩ := Option.map_eq_some'.mp heq2
        exact ⟨r, heq, ha.symm, l', hl', hs ▸ hs3.symm⟩
      · exact absurd h (by simp)
    · exact absurd h (by simp)

end RandomList

/-- C7: on a non-empty collection, a successful `get_random_and_remove`
resolves the drawn target through the Selector against `offsetContents`,
applies a weight adjustment of exactly −1 to the first record of `contents`
whose item equals the resolved item, removes that record from `contents`
exactly when the resulting weight is ≤ 0 (so a weight-1 record is removed on
its first draw-and-remove, and a weight-N record keeps a positive weight for
the first N−1 such adjustments), and rebuilds `offsetContents` from the
resulting contents unconditionally. -/
theorem get_random_and_remove_spec {α : Type} [DecidableEq α]
    (s : RandomList α) (t : Int) (a : α) (s2 : RandomList α)
    (h : s.get_random_and_remove t = Except.ok (a, s2)) :
    s.contents ≠ [] ∧
    ∃ r, get_from_list t s.offset_contents = some r ∧ a = r.item ∧
    ∃ i, ∃ hi : i < s.contents.length,
      (s.contents.get ⟨i, hi⟩).item = r.item ∧
      (∀ j, ∀ hj : j < i, (s.contents.get ⟨j, lt_trans hj hi⟩).item ≠ r.item) ∧
      s2.contents = (if (s.contents.get ⟨i, hi⟩).probability - 1 ≤ 0
          then s.contents.eraseIdx i
          else s.contents.set i
            { item := r.item
              probability := (s.contents.get ⟨i, hi⟩).probability - 1 }) ∧
      s2.offset_contents = format_list_probabilities s2.contents := by
  obtain ⟨hne, r, hr, ha, l', hl', hs2⟩ := RandomList.grr_ok s t a s2 h
  obtain ⟨i, hi, h1, h2, h3⟩ := RandomList.adjustList_spec r.item (-1) s.contents l' hl'
  have hpm : (s.contents.get ⟨i, hi⟩).probability + (-1) =
      (s.contents.get ⟨i, hi⟩).probability - 1 := by ring
  refine ⟨hne, r, hr, ha, i, hi, h1, h2, ?_, ?_⟩
  · rw [hs2]
    show l' = _
    rw [h3, hpm]
  · rw [hs2]

/-- Witness for C7: drawing target 2 on the two-item collection `[0, 1]`
(weights 1 and 1) resolves to item 1 and removes its record. -/
theorem get_random_and_remove_spec_witness :
    (RandomList.make [RawItem.plain (0 : Nat), RawItem.plain 1]).contents ≠ [] ∧
    ∃ r, get_from_list 2
      (RandomList.make [RawItem.plain (0 : Nat), RawItem.plain 1]).offset_contents = some r ∧
      (1 : Nat) = r.item ∧
    ∃ i, ∃ hi : i <
        (RandomList.make [RawItem.plain (0 : Nat), RawItem.plain 1]).contents.length,
      ((RandomList.make [RawItem.plain (0 : Nat), RawItem.plain 1]).contents.get
        ⟨i, hi⟩).item = r.item ∧
      (∀ j, ∀ hj : j < i,
        ((RandomList.make [RawItem.plain (0 : Nat), RawItem.plain 1]).contents.get
          ⟨j, lt_trans hj hi⟩).item ≠ r.item) ∧
      (RandomList.mk [WRec.mk 0 1] [WRec.mk 0 1] [WRec.mk 0 1, WRec.mk 1 1]
          false).contents =
        (if ((RandomList.make [RawItem.plain (0 : Nat), RawItem.plain 1]).contents.get
              ⟨i, hi⟩).probability - 1 ≤ 0
          then (RandomList.make [RawItem.plain (0 : Nat), RawItem.plain 1]).contents.eraseIdx i
          else (RandomList.make [RawItem.plain (0 : Nat), RawItem.plain 1]).contents.set i
            { item := r.item
              probability := ((RandomList.make [RawItem.plain (0 : Nat),
                RawItem.plain 1]).contents.get ⟨i, hi⟩).probability - 1 }) ∧
      (RandomList.mk [WRec.mk 0 1] [WRec.mk 0 1] [WRec.mk 0 1, WRec.mk 1 1]
          false).offset_contents =
        format_list_probabilities
          (RandomList.mk [WRec.mk 0 1] [WRec.mk 0 1] [WRec.mk 0 1, WRec.mk 1 1]
            false).contents := by
  exact get_random_and_remove_spec
    (RandomList.make [RawItem.plain (0 : Nat), RawItem.plain 1]) 2 1
    (RandomList.mk [WRec.mk 0 1] [WRec.mk 0 1] [WRec.mk 0 1, WRec.mk 1 1] false) rfl

/-- C8 counterexample: on the collection built from the single record
`{item: 0, weight: 2}`, the first `get_random_and_remove` call succeeds
(returning item 0) yet does not decrease the number of records in
`contents` — the record survives with weight 1 — refuting "each successful
call decreases the number of records in contents". -/
theorem depletion_strict_counterexample :
    (RandomList.make [RawItem.record (WRec.mk (0 : Nat) 2)]).get_random_and_remove 1 =
      Except.ok (0, RandomList.mk [WRec.mk 0 1] [WRec.mk 0 1] [WRec.mk 0 2] false)
    ∧ ¬ (((RandomList.make [RawItem.record (WRec.mk (0 : Nat) 2)]).step
          (Op.drawRemove 1)).contents.length <
        (RandomList.make [RawItem.record (WRec.mk (0 : Nat) 2)]).contents.length) :=
  ⟨rfl, by decide⟩

/-- C8 (amended): each successful `get_random_and_remove` call removes at
most one record — `contents` never grows, and its length decreases by 0 or 1
— and once `contents` is empty every further call raises `EmptyCollection`. -/
theorem depletion_monotonic {α : Type} [DecidableEq α] (s : RandomList α)
    (t : Int) :
    (∀ a : α, ∀ s2 : RandomList α, s.get_random_and_remove t = Except.ok (a, s2) →
      s2.contents.length = s.contents.length ∨
        s2.contents.length + 1 = s.contents.length)
    ∧ (s.contents = [] →
        s.get_random_and_remove t = Except.error Err.emptyCollection) := by
  constructor
  · intro a s2 h
    obtain ⟨-, r, -, -, l', hl', hs2⟩ := RandomList.grr_ok s t a s2 h
    rw [hs2]
    exact RandomList.adjustList_length r.item (-1) s.contents l' hl'
  · intro hnil
    rw [RandomList.get_random_and_remove, if_pos (by rw [hnil]; rfl)]

/-- Witness for C8 (amended): the weight-2 single-record collection after one
successful call, and the empty collection raising `EmptyCollection`. -/
theorem depletion_monotonic_witness :
    ((RandomList.mk [WRec.mk (0 : Nat) 1] [WRec.mk 0 1] [WRec.mk 0 2]
          false).contents.length =
        (RandomList.make [RawItem.record (WRec.mk (0 : Nat) 2)]).contents.length
      ∨ (RandomList.mk [WRec.mk (0 : Nat) 1] [WRec.mk 0 1] [WRec.mk 0 2]
          false).contents.length + 1 =
        (RandomList.make [RawItem.record (WRec.mk (0 : Nat) 2)]).contents.length)
    ∧ (RandomList.make ([] : List (RawItem Nat))).get_random_and_remove 1 =
        Except.error Err.emptyCollection := by
  constructor
  · exact (depletion_monotonic
      (RandomList.make [RawItem.record (WRec.mk (0 : Nat) 2)]) 1).1 0
      (RandomList.mk [WRec.mk 0 1] [WRec.mk 0 1] [WRec.mk 0 2] false) rfl
  · exact (depletion_monotonic (RandomList.make ([] : List (RawItem Nat))) 1).2 rfl

/-- C9: the two drawing operations of a collection raise `EmptyCollection`
exactly when `contents` is empty (and then perform no draw and leave the
state unchanged), and a group's `get_random` raises `EmptyGroup` exactly
when `lists` is empty. -/
theorem empty_error_spec {α : Type} [DecidableEq α] (s : RandomList α)
    (g : RandomGroup α) (t t2 : Int) :
    (s.get_random t = Except.error Err.emptyCollection ↔ s.contents = [])
    ∧ (s.get_random_and_remove t = Except.error Err.emptyCollection ↔
        s.contents = [])
    ∧ (s.contents = [] →
        s.step (Op.draw t) = s ∧ s.step (Op.drawRemove t) = s)
    ∧ (g.get_random t t2 = Except.error Err.emptyGroup ↔ g.lists = []) := by
  have hR : ∀ s' : RandomList α, ∀ u : Int,
      s'.get_random u ≠ Except.error Err.emptyGroup := by
    intro s' u h
    rw [RandomList.get_random] at h
    by_cases he : s'.contents.isEmpty
    · rw [if_pos he] at h
      cases h
    · rw [if_neg he] at h
      cases heq : get_from_list u s'.offset_contents with
      | none => rw [heq] at h; cases h
      | some r => rw [heq] at h; cases h
  refine ⟨?_, ?_, ?_, ?_⟩
  · rw [RandomList.get_random]
    by_cases he : s.contents.isEmpty
    · rw [if_pos he]
      simp only [true_iff]
      exact List.isEmpty_iff.mp he
    · rw [if_neg he]
      constructor
      · intro h
        cases heq : get_from_list t s.offset_contents with
        | none => rw [heq] at h; cases h
        | some r => rw [heq] at h; cases h
      · intro hnil
        rw [hnil] at he
        exact absurd rfl he
  · rw [RandomList.get_random_and_remove]
    by_cases he : s.contents.isEmpty
    · rw [if_pos he]
      simp only [true_iff]
      exact List.isEmpty_iff.mp he
    · rw [if_neg he]
      constructor
      · intro h
        split at h
        · split at h
          · simp at h
          · simp at h
        · simp at h
      · intro hnil
        rw [hnil] at he
        exact absurd rfl he
  · intro hnil
    refine ⟨rfl, ?_⟩
    rw [RandomList.step, RandomList.get_random_and_remove,
      if_pos (by rw [hnil]; rfl)]
  · rw [RandomGroup.get_random]
    by_cases he : g.lists.isEmpty
    · rw [if_pos he]
      simp only [true_iff]
      exact List.isEmpty_iff.mp he
    · rw [if_neg he]
      constructor
      · intro h
        cases heq : get_from_list t g.offset_lists with
        | none => rw [heq] at h; cases h
        | some r =>
          rw [heq] at h
          exact absurd h (hR r.item t2)
      · intro hnil
        rw [hnil] at he
        exact absurd rfl he

/-- Witness for C9: a singleton collection does not raise `EmptyCollection`,
the empty collection leaves the state unchanged, and a singleton group does
not raise `EmptyGroup`. -/
theorem empty_error_spec_witness :
    ((RandomList.make ([] : List (RawItem Nat))).step (Op.draw 1) =
        RandomList.make ([] : List (RawItem Nat))
      ∧ (RandomList.make ([] : List (RawItem Nat))).step (Op.drawRemove 1) =
        RandomList.make ([] : List (RawItem Nat)))
    ∧ ¬ ((RandomList.make [RawItem.plain (0 : Nat)]).get_random 1 =
        Except.error Err.emptyCollection) := by
  constructor
  · exact (empty_error_spec (RandomList.make ([] : List (RawItem Nat)))
      (RandomGroup.make []) 1 1).2.2.1 rfl
  · intro h
    have := (empty_error_spec (RandomList.make [RawItem.plain (0 : Nat)])
      (RandomGroup.make []) 1 1).1.mp h
    cases this

/-! ## The positive-weight invariant -/

lemma make_mem_normalize {α : Type} (input : List (RawItem α)) (r : WRec α)
    (hr : r ∈ format_list input) : ∃ x ∈ input, normalizeItem x = r := by
  have hperm : r ∈ input.map normalizeItem :=
    (List.perm_insertionSort weightGE (input.map normalizeItem)).mem_iff.mp hr
  exact List.mem_map.mp hperm

lemma step_pos {α : Type} [DecidableEq α] (s : RandomList α) (op : Op)
    (h1 : ∀ r ∈ s.contents, 0 < r.probability)
    (h2 : ∀ r ∈ s.original_contents, 0 < r.probability) :
    (∀ r ∈ (s.step op).contents, 0 < r.probability) ∧
    (∀ r ∈ (s.step op).original_contents, 0 < r.probability) := by
  cases op with
  | draw t => exact ⟨h1, h2⟩
  | reset => exact ⟨h2, h2⟩
  | drawRemove t =>
    cases heq : s.get_random_and_remove t with
    | error e =>
      simp only [RandomList.step, heq]
      exact ⟨h1, h2⟩
    | ok p =>
      obtain ⟨a, s2⟩ := p
      obtain ⟨-, r, -, -, l', hl', hs2⟩ := RandomList.grr_ok s t a s2 heq
      have hpos' := RandomList.adjustList_pos r.item (-1) s.contents l' hl' h1
      simp only [RandomList.step, heq]
      rw [hs2]
      refine ⟨hpos', ?_⟩
      by_cases hal : s.aliased
      · simp only [hal, if_true]
        exact hpos'
      · simp only [hal, if_false]
        exact h2

lemma run_pos {α : Type} [DecidableEq α] :
    ∀ (ops : List Op) (s : RandomList α),
      (∀ r ∈ s.contents, 0 < r.probability) →
      (∀ r ∈ s.original_contents, 0 < r.probability) →
      (∀ r ∈ (s.run ops).contents, 0 < r.probability) ∧
      (∀ r ∈ (s.run ops).original_contents, 0 < r.probability)
  | [], s => fun h1 h2 => ⟨h1, h2⟩
  | op :: ops, s => fun h1 h2 => by
    obtain ⟨h1', h2'⟩ := step_pos s op h1 h2
    exact run_pos ops (s.step op) h1' h2'

/-- C3 counterexample: a collection constructed from the single well-formed
record `{item: 0, weight: 0}` keeps that weight-0 record in its active
canonical sequence — `format_list` does not remove non-positive-weight
records at creation. -/
theorem nonpositive_weight_kept :
    ¬ (∀ r ∈ (RandomList.make [RawItem.record (WRec.mk (0 : Nat) 0)]).contents,
        0 < r.probability) := by decide

/-- C3 (amended): records with non-positive weight are not filtered out at
construction; but whenever every explicit weight in the construction input is
positive, every record in the active canonical sequence `contents` has
positive weight in every reachable state (depletion removes a record as soon
as its weight drops to 0 or below, and reset restores the snapshot, whose
records stay positive). -/
theorem pos_weight_invariant {α : Type} [DecidableEq α]
    (input : List (RawItem α))
    (hpos : ∀ x ∈ input, 0 < (normalizeItem x).probability) (ops : List Op) :
    ∀ r ∈ ((RandomList.make input).run ops).contents, 0 < r.probability := by
  have hc : ∀ r ∈ (RandomList.make input).contents, 0 < r.probability := by
    intro r hr
    obtain ⟨x, hx, hxr⟩ := make_mem_normalize input r hr
    exact hxr ▸ hpos x hx
  exact (run_pos ops (RandomList.make input) hc hc).1

/-- Witness for C3 (amended): a mixed positive-weight input stays positive
across a depletion, a reset and a draw. -/
theorem pos_weight_invariant_witness :
    ((RandomList.make [RawItem.plain (0 : Nat),
        RawItem.record (WRec.mk 2 2)]).run
      [Op.drawRemove 1, Op.reset, Op.draw 3]).contents.all
      (fun r => decide (0 < r.probability)) = true := by
  rw [List.all_eq_true]
  intro r hr
  simpa using pos_weight_invariant
    [RawItem.plain (0 : Nat), RawItem.record (WRec.mk 2 2)] (by decide)
    [Op.drawRemove 1, Op.reset, Op.draw 3] r hr

/-! ## Total weight under depletion -/

lemma totalWeight_eq_sum {α : Type} (s : RandomList α)
    (hoff : s.offset_contents = format_list_probabilities s.contents) :
    s.totalWeight = (s.contents.map WRec.probability).sum := by
  rw [RandomList.totalWeight, hoff]
  cases hc : s.contents with
  | nil => rfl
  | cons x xs =>
    have hne : format_list_probabilities (x :: xs) ≠ [] := by
      rw [format_list_probabilities, flpAux]
      exact List.cons_ne_nil _ _
    have hlast := List.getLast?_eq_getLast_of_ne_nil hne
    have hsum := flpAux_getLast 0 (x :: xs)
      ((format_list_probabilities (x :: xs)).getLast hne) hlast
    rw [hlast]
    simp only [Option.map_some', Option.getD_some]
    rw [hsum]
    ring

lemma grr_totalWeight {α : Type} [DecidableEq α] (s : RandomList α) (t : Int)
    (a : α) (s2 : RandomList α)
    (hpos : ∀ r ∈ s.contents, 0 < r.probability)
    (hoff : s.offset_contents = format_list_probabilities s.contents)
    (h : s.get_random_and_remove t = Except.ok (a, s2)) :
    s2.totalWeight = s.totalWeight - 1
    ∧ (∀ r ∈ s2.contents, 0 < r.probability)
    ∧ s2.offset_contents = format_list_probabilities s2.contents := by
  obtain ⟨-, r, -, -, l', hl', hs2⟩ := RandomList.grr_ok s t a s2 h
  have hsum := RandomList.adjustList_sum r.item s.contents l' hl' hpos
  have hpos2 := RandomList.adjustList_pos r.item (-1) s.contents l' hl' hpos
  subst hs2
  refine ⟨?_, hpos2, rfl⟩
  rw [totalWeight_eq_sum _ rfl, totalWeight_eq_sum s hoff]
  exact hsum

lemma runRemove_totalWeight {α : Type} [DecidableEq α] :
    ∀ (ts : List Int) (s s2 : RandomList α),
      (∀ r ∈ s.contents, 0 < r.probability) →
      s.offset_contents = format_list_probabilities s.contents →
      s.runRemove ts = some s2 →
      s2.totalWeight = s.totalWeight - ts.length
      ∧ (∀ r ∈ s2.contents, 0 < r.probability)
      ∧ s2.offset_contents = format_list_probabilities s2.contents
  | [], s, s2 => by
    intro hpos hoff h
    rw [RandomList.runRemove, Option.some.injEq] at h
    subst h
    exact ⟨by simp, hpos, hoff⟩
  | t :: ts, s, s2 => by
    intro hpos hoff h
    rw [RandomList.runRemove] at h
    cases heq : s.get_random_and_remove t with
    | error e =>
      rw [heq] at h
      cases h
    | ok p =>
      obtain ⟨a, s1⟩ := p
      rw [heq] at h
      replace h : s1.runRemove ts = some s2 := h
      obtain ⟨e1, hpos1, hoff1⟩ := grr_totalWeight s t a s1 hpos hoff heq
      obtain ⟨e2, hpos2, hoff2⟩ := runRemove_totalWeight ts s1 s2 hpos1 hoff1 h
      refine ⟨?_, hpos2, hoff2⟩
      rw [e2, e1]
      simp only [List.length_cons]
      push_cast
      ring

lemma contents_empty_iff_totalWeight {α : Type} (s : RandomList α)
    (hpos : ∀ r ∈ s.contents, 0 < r.probability)
    (hoff : s.offset_contents = format_list_probabilities s.contents) :
    (s.contents = [] ↔ s.totalWeight = 0) := by
  rw [totalWeight_eq_sum s hoff]
  constructor
  · intro h
    rw [h]
    rfl
  · intro h
    by_contra hne
    have hmapne : s.contents.map WRec.probability ≠ [] := by
      intro hmap
      exact hne (List.map_eq_nil_iff.mp hmap)
    have hpos' : ∀ x ∈ s.contents.map WRec.probability, 0 < x := by
      intro x hx
      obtain ⟨r, hr, hrx⟩ := List.mem_map.mp hx
      exact hrx ▸ hpos r hr
    exact absurd h (ne_of_gt (List.sum_pos _ hpos' hmapne))

/-- C10: for a collection whose records all have positive weight (with the
derived cumulative index in its invariant state and, as the spec limits
callers to, no duplicate-valued items), every successful
`get_random_and_remove` call decreases the total weight — the final weight
of `offsetContents`, read as 0 when empty — by exactly 1; consequently a
sequence of successful calls of length L leaves total weight S − L, and the
collection is empty after exactly S = initial total weight successful
calls. -/
theorem total_weight_depletion {α : Type} [DecidableEq α] (s : RandomList α)
    (hpos : ∀ r ∈ s.contents, 0 < r.probability)
    (hoff : s.offset_contents = format_list_probabilities s.contents)
    (hnd : (s.contents.map WRec.item).Nodup) :
    (∀ t : Int, ∀ a : α, ∀ s2 : RandomList α,
        s.get_random_and_remove t = Except.ok (a, s2) →
        s2.totalWeight = s.totalWeight - 1)
    ∧ (∀ ts : List Int, ∀ s2 : RandomList α, s.runRemove ts = some s2 →
        s2.totalWeight = s.totalWeight - ts.length
        ∧ (s2.contents = [] ↔ (ts.length : Int) = s.totalWeight)) := by
  constructor
  · intro t a s2 h
    exact (grr_totalWeight s t a s2 hpos hoff h).1
  · intro ts s2 h
    obtain ⟨h1, h2, h3⟩ := runRemove_totalWeight ts s s2 hpos hoff h
    refine ⟨h1, ?_⟩
    rw [contents_empty_iff_totalWeight s2 h2 h3, h1]
    omega

/-- Witness for C10: the collection `[0 (weight 1), {1: weight 2}]` has total
weight 3 and empties after exactly the three successful calls made with
draw targets 1, 1, 1. -/
theorem total_weight_depletion_witness :
    ((RandomList.mk ([] : List (WRec Nat)) [] [WRec.mk 1 2, WRec.mk 0 1]
        false).totalWeight =
      (RandomList.make [RawItem.plain (0 : Nat),
        RawItem.record (WRec.mk 1 2)]).totalWeight -
        ([1, 1, 1] : List Int).length)
    ∧ ((RandomList.mk ([] : List (WRec Nat)) [] [WRec.mk 1 2, WRec.mk 0 1]
        false).contents = [] ↔
      ((([1, 1, 1] : List Int).length : Int) =
        (RandomList.make [RawItem.plain (0 : Nat),
          RawItem.record (WRec.mk 1 2)]).totalWeight)) :=
  (total_weight_depletion
    (RandomList.make [RawItem.plain (0 : Nat), RawItem.record (WRec.mk 1 2)])
    (by decide) rfl (by decide)).2 [1, 1, 1]
    (RandomList.mk ([] : List (WRec Nat)) [] [WRec.mk 1 2, WRec.mk 0 1] false)
    rfl

/-! ## The reset-aliasing bug -/

/-- C1: `reset_contents` executes `self.contents = self._original_contents`
by reference, so after a reset a depleting call mutates `originalContents`
through the shared list. On the weight-1 singleton collection, running
`reset_contents()` and then `get_random_and_remove()` leaves
`originalContents` equal to `[]`, not to the construction-time snapshot
`[{item: 0, weight: 1}]`. -/
theorem original_contents_mutated :
    (RandomList.make [RawItem.plain (0 : Nat)]).original_contents =
      [WRec.mk 0 1]
    ∧ ((RandomList.make [RawItem.plain (0 : Nat)]).run
        [Op.reset, Op.drawRemove 1]).original_contents = [] :=
  ⟨rfl, rfl⟩

/-- C2: after a reset followed by a depleting draw has mutated the shared
snapshot, `resetContents()` followed by `getAllItems()` returns `[]` instead
of the item sequence `[0]` of the normalized construction input. -/
theorem reset_not_restoring_after_alias :
    (format_list [RawItem.plain (0 : Nat)]).map WRec.item = [0]
    ∧ (((RandomList.make [RawItem.plain (0 : Nat)]).run
        [Op.reset, Op.drawRemove 1]).reset_contents).get_all_items = [] :=
  ⟨rfl, rfl⟩

end Randomizer
